import Mathlib

/-
Verification of the range-normalization and longest-prefix-match engine of
melish/ipaddresses (src/parse.py), as a shallow embedding in Lean 4.

IPv4 addresses are modelled as natural numbers (valid addresses are < 2^32).
Python strings are modelled as Lean strings; the Python `str.split`,
`str.strip` and `str.startswith` operations used by the source are embedded
as structural functions on `List Char` (a Lean `String` is a structure
holding its `List Char` data, so these are faithful and kernel-computable).
Fallible code paths (Python exceptions) are modelled with `Except String`.
-/

namespace IpAddresses

/-! ## Python string primitives used by parse.py -/

/-- Model of Python str.split(sep) for a one-character separator: splits on
every occurrence of the separator, keeping empty chunks. -/
def pySplit (sep : Char) : List Char → List (List Char)
  | [] => [[]]
  | c :: cs =>
    if c = sep then [] :: pySplit sep cs
    else
      match pySplit sep cs with
      | [] => [[c]]
      | p :: ps => (c :: p) :: ps

/-- Model of Python str.strip() with no argument: removes leading and
trailing whitespace. -/
def pyStrip (cs : List Char) : List Char :=
  ((cs.dropWhile Char.isWhitespace).reverse.dropWhile Char.isWhitespace).reverse

/-- Model of Python line.startswith("#"). -/
def startsWithHash : List Char → Bool
  | '#' :: _ => true
  | _ => false

/-- Digits-only chunk to number; `none` when empty or a non-digit occurs
(Python int conversion inside IPv4Address raises there). -/
def digitsToNat? (cs : List Char) : Option Nat :=
  if cs ≠ [] ∧ cs.all Char.isDigit then
    some (cs.foldl (fun n c => n * 10 + (c.toNat - 48)) 0)
  else none

/-- Model of ipaddress.IPv4Address parsing of a dotted quad: exactly four
dot-separated decimal chunks, each at most 255. (CPython additionally
rejects chunks longer than three digits or with leading zeros; no claim
depends on those inputs.) -/
def parseIPv4 (cs : List Char) : Option Nat :=
  match pySplit '.' cs with
  | [a, b, c, d] =>
    match digitsToNat? a, digitsToNat? b, digitsToNat? c, digitsToNat? d with
    | some x, some y, some z, some w =>
      if x ≤ 255 ∧ y ≤ 255 ∧ z ≤ 255 ∧ w ≤ 255 then
        some (((x * 256 + y) * 256 + z) * 256 + w)
      else none
    | _, _, _, _ => none
  | _ => none

/-! ## Numeric primitives of ipaddress.summarize_address_range -/

/-- Trailing binary zeros of `x`, counted with explicit fuel (structural, so
the kernel can evaluate it); for `x = 0` the count equals the fuel. -/
def rhzb : Nat → Nat → Nat
  | 0, _ => 0
  | fuel + 1, x => if x % 2 = 0 then rhzb fuel (x / 2) + 1 else 0

/-- Model of ipaddress._count_righthand_zero_bits(x, 32): 32 for x = 0,
otherwise min(32, number of trailing zero bits of x). -/
def crzb (x : Nat) : Nat := rhzb 32 x

/-- Floor of log2 with fuel (structural). -/
def log2fuel : Nat → Nat → Nat
  | 0, _ => 0
  | fuel + 1, n => if 2 ≤ n then log2fuel fuel (n / 2) + 1 else 0

/-- Model of Python (n).bit_length() - 1 for n ≥ 1, i.e. floor(log2 n).
Fuel n is always sufficient. -/
def pyLog2 (n : Nat) : Nat := log2fuel n n

/-! ## Blocks (ipaddress.IPv4Network values: network address + prefix) -/

/-- A CIDR block: network address and prefix length. Equality of Python
IPv4Network keys is equality of both fields. -/
structure Block where
  network : Nat
  prefixLen : Nat
deriving DecidableEq

/-- Model of masking an address to a prefix length, as done by
IPv4Network(addr/p, strict=False): clear the low 32 - p bits. -/
def mask (a p : Nat) : Nat := a / 2 ^ (32 - p) * 2 ^ (32 - p)

/-- A block contains an address iff masking the address to the block's
prefix length gives the block's network address (Python `in`). -/
def containsAddr (b : Block) (a : Nat) : Prop := mask a b.prefixLen = b.network

instance (b : Block) (a : Nat) : Decidable (containsAddr b a) := by
  unfold containsAddr; infer_instance

/-- Interval reading of a block's address set (used internally; equivalent
to `containsAddr` for aligned blocks, see `containsAddr_iff_inBlk`). -/
def inBlk (b : Block) (a : Nat) : Prop :=
  b.network ≤ a ∧ a < b.network + 2 ^ (32 - b.prefixLen)

/-- Two blocks with no common address. -/
def blkDisj (b1 b2 : Block) : Prop := ∀ a, inBlk b1 a → ¬ inBlk b2 a

/-! ## summarize_address_range and split_range -/

/-- Number of low bits free in the next block emitted by
summarize_address_range at current start f, end l: the min of the trailing
zeros of f (capped at 32) and bit_length(l - f + 1) - 1. -/
def nbitsOf (f l : Nat) : Nat := min (crzb f) (pyLog2 (l - f + 1))

/-- One step of ipaddress.summarize_address_range, written with explicit
fuel (the loop advances f by at least 1 each iteration, so fuel
l + 1 - f is always sufficient; see `summarize`). -/
def summarizeAux : Nat → Nat → Nat → List Block
  | 0, _, _ => []
  | gas + 1, f, l =>
    if f ≤ l then
      Block.mk f (32 - nbitsOf f l) :: summarizeAux gas (f + 2 ^ nbitsOf f l) l
    else []

/-- Model of list(ipaddress.summarize_address_range(first, last)): the
minimal CIDR cover of [f, l], produced greedily from the low end. -/
def summarize (f l : Nat) : List Block := summarizeAux (l + 1 - f) f l

/-- MIN_SUBNET_PREFIX from parse.py (renamed; value 16). -/
def MIN_SUBNET_PREFIX_LEN : Nat := 16

/-- Model of net.subnets(new_prefix=np): the consecutive sub-blocks of b at
prefix length np (meaningful when b.prefixLen ≤ np ≤ 32). -/
def subnetsTo (b : Block) (np : Nat) : List Block :=
  (List.range (2 ^ (np - b.prefixLen))).map
    (fun i => Block.mk (b.network + i * 2 ^ (32 - np)) np)

/-- Model of parse.split_range on already-parsed numeric addresses: the
summarized cover, with every block coarser than MIN_SUBNET_PREFIX
subdivided to exactly that prefix length. -/
def split_range (s e : Nat) : List Block :=
  (summarize s e).flatMap
    (fun net =>
      if net.prefixLen < MIN_SUBNET_PREFIX_LEN then subnetsTo net MIN_SUBNET_PREFIX_LEN
      else [net])

/-! ## The block table and load_networks -/

/-- A table entry: the per-block dict built by load_networks. Each Python
dict key becomes an optional field (absent key = `none`). The source stores
"cidr" as str(cidr); the block itself is stored here (str is injective on
blocks, so nothing is lost). -/
structure Entry where
  cidr : Option Block
  num_addr_orig : Option Nat
  inetnum : Option String
  netname : Option String
  country : Option String
  descr : Option String
  ip_count : Option Nat
deriving DecidableEq

/-- The empty dict a defaultdict(dict) materializes on first access. -/
def Entry.empty : Entry := ⟨none, none, none, none, none, none, none⟩

/-- Update the entry of one block, materializing an empty entry when the
block is absent (defaultdict semantics). -/
def writeKey (d : Block → Option Entry) (c : Block) (f : Entry → Entry) :
    Block → Option Entry :=
  fun b => if b = c then some (f ((d c).getD Entry.empty)) else d b

/-- Model of `for cidr in cs: data[cidr][k] = v` for a fixed field update f. -/
def writeEntryField (f : Entry → Entry) (d : Block → Option Entry)
    (cs : List Block) : Block → Option Entry :=
  cs.foldl (fun d c => writeKey d c f) d

/-- Model of lines 76-78 of parse.py: for each kept block, set its "cidr"
and "num_addr_orig" fields. -/
def writeCidrNum (numAddr : Nat) (d : Block → Option Entry)
    (cs : List Block) : Block → Option Entry :=
  cs.foldl
    (fun d c =>
      writeKey d c (fun en => { en with cidr := some c, num_addr_orig := some numAddr }))
    d

/-- The drop condition of line 74: `cidr in data and
data[cidr]["num_addr_orig"] < num_addr`. Entries created by load_networks
always carry num_addr_orig, so the inner `none` branch is unreachable
(Python would raise KeyError there). -/
def dropNew (existing : Option Entry) (numAddr : Nat) : Bool :=
  match existing with
  | none => false
  | some en =>
    match en.num_addr_orig with
    | some m => decide (m < numAddr)
    | none => false

/-- Model of lines 70-78 of parse.py: keep only the blocks whose existing
entry is not strictly more specific, then write cidr and num_addr_orig to
each kept block. Returns the updated table and the kept blocks (the new
current_range). -/
def resolveWrite (d : Block → Option Entry) (rng : List Block)
    (numAddr : Nat) : (Block → Option Entry) × List Block :=
  let rng2 := rng.filter (fun c => ! dropNew (d c) numAddr)
  (writeCidrNum numAddr d rng2, rng2)

/-- Field update for `data[cidr][key] = value` with key one of the four
recognized keys (anything else never reaches this point). -/
def setAttr (key v : List Char) (en : Entry) : Entry :=
  if key = "inetnum".data then { en with inetnum := some (String.mk v) }
  else if key = "netname".data then { en with netname := some (String.mk v) }
  else if key = "country".data then { en with country := some (String.mk v) }
  else if key = "descr".data then { en with descr := some (String.mk v) }
  else en

/-- The keys recognized at line 59 of parse.py. -/
def recognizedKeys : List (List Char) :=
  ["inetnum".data, "netname".data, "country".data, "descr".data]

/-- Parser state threaded through the line loop of load_networks. -/
structure LoadState where
  data : Block → Option Entry
  current_range : Option (List Block)
  prev_key : Option (List Char)

/-- State before the first line. -/
def initState : LoadState := ⟨fun _ => none, none, none⟩

/-- Processing of one recognized key/value pair (lines 62-83 of parse.py),
after the comment/blank/unrecognized-key checks and value extraction.
Python exceptions (ValueError on a malformed or reversed inetnum range,
AddressValueError on a bad address, TypeError when iterating a None
current_range) become `.error`. -/
def loadKeyed (st : LoadState) (key value : List Char) : Except String LoadState :=
  if key = "descr".data ∧ st.prev_key = some "descr".data then .ok st
  else if key = "inetnum".data then
    match pySplit '-' value with
    | [sRaw, eRaw] =>
      match parseIPv4 (pyStrip sRaw), parseIPv4 (pyStrip eRaw) with
      | some s, some e =>
        if s ≤ e then
          let rng := split_range s e
          let numAddr := (rng.map (fun b => 2 ^ (32 - b.prefixLen))).sum
          let dr := resolveWrite st.data rng numAddr
          .ok { data := writeEntryField (setAttr key value) dr.1 dr.2,
                current_range := some dr.2, prev_key := some key }
        else .error "ValueError: last address must be greater or equal to first"
      | _, _ => .error "AddressValueError: invalid address"
    | _ => .error "ValueError: unpack"
  else
    match st.current_range with
    | none => .error "TypeError: NoneType object is not iterable"
    | some rng =>
      .ok { st with data := writeEntryField (setAttr key value) st.data rng,
                    prev_key := some key }

/-- Processing of one raw line of the registry dump (lines 52-83 of
parse.py): skip comments, reset current_range on blank lines, skip
unrecognized keys, extract the value (IndexError when the line has no
colon), then hand over to loadKeyed. -/
def loadLine (st : LoadState) (line : String) : Except String LoadState :=
  if startsWithHash line.data then .ok st
  else if pyStrip line.data = [] then .ok { st with current_range := none }
  else
    let parts := pySplit ':' line.data
    let key := pyStrip parts.headI
    if key ∈ recognizedKeys then
      match parts.get? 1 with
      | none => .error "IndexError: list index out of range"
      | some raw => loadKeyed st key (pyStrip raw)
    else .ok st

/-- The line loop of load_networks. -/
def loadLines : List String → LoadState → Except String LoadState
  | [], st => .ok st
  | l :: ls, st =>
    match loadLine st l with
    | .ok st2 => loadLines ls st2
    | .error e => .error e

/-- The keep predicate of the generic-block filter (lines 86-94). Python
reads v["netname"] and v["country"] unconditionally and raises KeyError
when one is missing; entries without both fields are modelled as removed
(no claim concerns such entries, and the C6 theorem assumes both present). -/
def keepEntry (en : Entry) : Bool :=
  match en.netname, en.country with
  | some n, some c =>
    !(["IANA-BLOCK", "ARIN-CIDR-BLOCK", "RIPE-CIDR-BLOCK", "ERX-NETBLOCK"].contains n)
      && !("IANA-NETBLOCK".data.isPrefixOf n.data)
      && !("STUB-".data.isPrefixOf n.data)
      && !(c == "ZZ")
  | _, _ => false

/-- The dict comprehension of lines 86-94 applied to the table. -/
def blockFilter (d : Block → Option Entry) : Block → Option Entry :=
  fun b =>
    match d b with
    | some en => if keepEntry en then some en else none
    | none => none

/-- Model of load_networks on the list of lines of the dump (the pickle
fast path and progress reporting are I/O collaborators outside the core). -/
def load_networks (ls : List String) : Except String (Block → Option Entry) :=
  match loadLines ls initState with
  | .ok st => .ok (blockFilter st.data)
  | .error e => .error e

/-- Whether a load finished without raising. -/
def loadOk {α : Type} : Except String α → Bool
  | .ok _ => true
  | .error _ => false

/-- Observe one table slot of a load result (`none` when the load raised). -/
def loadResultAt (r : Except String (Block → Option Entry)) (b : Block) :
    Option (Option Entry) :=
  match r with
  | .ok d => some (d b)
  | .error _ => none

/-! ## guess_subnets and count_ips -/

/-- Model of guess_subnets(ip): candidate blocks (ip masked to p, p) for
prefix lengths p = 31 down to 7 (range(31, 6, -1)). -/
def guess_subnets (ip : Nat) : List Block :=
  (List.range 25).map (fun i => Block.mk (mask ip (31 - i)) (31 - i))

/-- The probe loop of count_ips for one address: first candidate that is a
key of the table (the loop breaks on the first hit). -/
def guessFind (isMem : Block → Bool) (ip : Nat) : Option Block :=
  (guess_subnets ip).find? isMem

/-- Effect of one count_ips iteration on the table: increment ip_count of
the entry of the first matching candidate block, or leave the table
unchanged on a miss. -/
def countStep (networks : Block → Option Entry) (ip : Nat) :
    Block → Option Entry :=
  match guessFind (fun c => (networks c).isSome) ip with
  | some c =>
    writeKey networks c (fun en => { en with ip_count := some (en.ip_count.getD 0 + 1) })
  | none => networks

/-- Model of count_ips on a list of already-parsed addresses. -/
def count_ips (ips : List Nat) (networks : Block → Option Entry) :
    Block → Option Entry :=
  ips.foldl countStep networks

/-! ## Arithmetic facts about the numeric primitives -/

theorem rhzb_le (g : Nat) : ∀ x, rhzb g x ≤ g := by
  induction g with
  | zero => intro x; simp [rhzb]
  | succ n ih =>
    intro x
    simp only [rhzb]
    split
    · exact Nat.succ_le_succ (ih _)
    · exact Nat.zero_le _

theorem two_pow_rhzb_dvd (g : Nat) : ∀ x, 2 ^ rhzb g x ∣ x := by
  induction g with
  | zero => intro x; simp [rhzb]
  | succ n ih =>
    intro x
    simp only [rhzb]
    split
    · rename_i hx
      have hx2 : 2 * (x / 2) = x := Nat.mul_div_cancel' (Nat.dvd_of_mod_eq_zero hx)
      have hd : 2 * 2 ^ rhzb n (x / 2) ∣ 2 * (x / 2) := Nat.mul_dvd_mul_left 2 (ih (x / 2))
      rw [hx2] at hd
      rw [pow_succ, Nat.mul_comm]
      exact hd
    · simp

theorem log2fuel_le (g : Nat) : ∀ n, 1 ≤ n → n ≤ g → 2 ^ log2fuel g n ≤ n := by
  induction g with
  | zero => intro n h1 h0; omega
  | succ g ih =>
    intro n h1 hg
    simp only [log2fuel]
    split
    · rename_i h2
      have ih2 := ih (n / 2) (by omega) (by omega)
      calc 2 ^ (log2fuel g (n / 2) + 1) = 2 ^ log2fuel g (n / 2) * 2 := by rw [pow_succ]
        _ ≤ n / 2 * 2 := Nat.mul_le_mul_right 2 ih2
        _ ≤ n := by omega
    · simpa using h1

theorem pyLog2_le (n : Nat) (h : 1 ≤ n) : 2 ^ pyLog2 n ≤ n :=
  log2fuel_le n n h (Nat.le_refl n)

theorem nbitsOf_le_32 (f l : Nat) : nbitsOf f l ≤ 32 :=
  Nat.le_trans (Nat.min_le_left _ _) (rhzb_le 32 f)

theorem two_pow_nbitsOf_dvd (f l : Nat) : 2 ^ nbitsOf f l ∣ f :=
  dvd_trans (pow_dvd_pow 2 (Nat.min_le_left _ _)) (two_pow_rhzb_dvd 32 f)

theorem two_pow_nbitsOf_le (f l : Nat) : 2 ^ nbitsOf f l ≤ l - f + 1 :=
  Nat.le_trans (Nat.pow_le_pow_right (by norm_num) (Nat.min_le_right _ _))
    (pyLog2_le _ (by omega))

/-- Mask-equality containment agrees with the interval reading on aligned
blocks (every block the system builds is aligned). -/
theorem containsAddr_iff_inBlk (b : Block)
    (hal : 2 ^ (32 - b.prefixLen) ∣ b.network) (a : Nat) :
    containsAddr b a ↔ inBlk b a := by
  obtain ⟨m, hm⟩ := hal
  have hkpos : 0 < 2 ^ (32 - b.prefixLen) := Nat.pos_pow_of_pos _ (by norm_num)
  have hdm : a / 2 ^ (32 - b.prefixLen) * 2 ^ (32 - b.prefixLen)
      + a % 2 ^ (32 - b.prefixLen) = a := by
    have h0 := Nat.div_add_mod a (2 ^ (32 - b.prefixLen))
    rw [Nat.mul_comm] at h0
    exact h0
  have hml := Nat.mod_lt a hkpos
  constructor
  · intro h
    unfold containsAddr mask at h
    unfold inBlk
    omega
  · intro ⟨h1, h2⟩
    unfold containsAddr mask
    rw [hm] at h1 h2 ⊢
    have hdiv : a / 2 ^ (32 - b.prefixLen) = m := by
      refine Nat.div_eq_of_lt_le (by rw [Nat.mul_comm]; exact h1) ?_
      calc a < 2 ^ (32 - b.prefixLen) * m + 2 ^ (32 - b.prefixLen) := by omega
        _ = (m + 1) * 2 ^ (32 - b.prefixLen) := by ring
    rw [hdiv, Nat.mul_comm]

/-! ## Properties of summarize_address_range -/

theorem summarizeAux_shape : ∀ (gas f l : Nat), l + 1 - f ≤ gas →
    ∀ b ∈ summarizeAux gas f l,
      b.prefixLen ≤ 32 ∧ 2 ^ (32 - b.prefixLen) ∣ b.network ∧ f ≤ b.network ∧
        b.network + 2 ^ (32 - b.prefixLen) ≤ l + 1 := by
  intro gas
  induction gas with
  | zero => intro f l hg b hb; simp [summarizeAux] at hb
  | succ gas ih =>
    intro f l hg b hb
    simp only [summarizeAux] at hb
    by_cases hfl : f ≤ l
    · rw [if_pos hfl] at hb
      have h32 : nbitsOf f l ≤ 32 := nbitsOf_le_32 f l
      have hss : 32 - (32 - nbitsOf f l) = nbitsOf f l := by omega
      have hone : 1 ≤ 2 ^ nbitsOf f l := Nat.one_le_two_pow
      rcases List.mem_cons.mp hb with hb | hb
      · subst hb
        refine ⟨by dsimp; omega, ?_, Nat.le_refl _, ?_⟩
        · dsimp
          rw [hss]
          exact two_pow_nbitsOf_dvd f l
        · dsimp
          rw [hss]
          have := two_pow_nbitsOf_le f l
          omega
      · have hgas2 : l + 1 - (f + 2 ^ nbitsOf f l) ≤ gas := by omega
        have hres := ih (f + 2 ^ nbitsOf f l) l hgas2 b hb
        exact ⟨hres.1, hres.2.1, by omega, hres.2.2.2⟩
    · rw [if_neg hfl] at hb
      simp at hb

theorem summarizeAux_cover : ∀ (gas f l : Nat), l + 1 - f ≤ gas →
    ∀ a, f ≤ a → a ≤ l → ∃ b ∈ summarizeAux gas f l, inBlk b a := by
  intro gas
  induction gas with
  | zero => intro f l hg a ha1 ha2; omega
  | succ gas ih =>
    intro f l hg a ha1 ha2
    have hfl : f ≤ l := Nat.le_trans ha1 ha2
    have hss : 32 - (32 - nbitsOf f l) = nbitsOf f l := by
      have := nbitsOf_le_32 f l; omega
    have hone : 1 ≤ 2 ^ nbitsOf f l := Nat.one_le_two_pow
    simp only [summarizeAux, if_pos hfl]
    by_cases ha : a < f + 2 ^ nbitsOf f l
    · refine ⟨Block.mk f (32 - nbitsOf f l), List.mem_cons_self _ _, ha1, ?_⟩
      dsimp
      rw [hss]
      exact ha
    · obtain ⟨b, hb, hin⟩ := ih (f + 2 ^ nbitsOf f l) l (by omega) a (by omega) ha2
      exact ⟨b, List.mem_cons_of_mem _ hb, hin⟩

theorem summarizeAux_disjoint : ∀ (gas f l : Nat), l + 1 - f ≤ gas →
    List.Pairwise blkDisj (summarizeAux gas f l) := by
  intro gas
  induction gas with
  | zero => intro f l hg; simp [summarizeAux]
  | succ gas ih =>
    intro f l hg
    simp only [summarizeAux]
    by_cases hfl : f ≤ l
    · rw [if_pos hfl]
      have hss : 32 - (32 - nbitsOf f l) = nbitsOf f l := by
        have := nbitsOf_le_32 f l; omega
      have hone : 1 ≤ 2 ^ nbitsOf f l := Nat.one_le_two_pow
      refine List.pairwise_cons.mpr ⟨?_, ih (f + 2 ^ nbitsOf f l) l (by omega)⟩
      intro b2 hb2 a hin1 hin2
      have hsh := summarizeAux_shape gas (f + 2 ^ nbitsOf f l) l (by omega) b2 hb2
      have hlt : a < f + 2 ^ nbitsOf f l := by
        have := hin1.2
        dsimp at this
        rw [hss] at this
        exact this
      have hge : f + 2 ^ nbitsOf f l ≤ a := Nat.le_trans hsh.2.2.1 hin2.1
      omega
    · rw [if_neg hfl]
      exact List.Pairwise.nil

theorem summarizeAux_sum : ∀ (gas f l : Nat), l + 1 - f ≤ gas →
    ((summarizeAux gas f l).map (fun b => 2 ^ (32 - b.prefixLen))).sum = l + 1 - f := by
  intro gas
  induction gas with
  | zero => intro f l hg; simp [summarizeAux]; omega
  | succ gas ih =>
    intro f l hg
    simp only [summarizeAux]
    by_cases hfl : f ≤ l
    · rw [if_pos hfl]
      have hss : 32 - (32 - nbitsOf f l) = nbitsOf f l := by
        have := nbitsOf_le_32 f l; omega
      have hone : 1 ≤ 2 ^ nbitsOf f l := Nat.one_le_two_pow
      have hle := two_pow_nbitsOf_le f l
      rw [List.map_cons, List.sum_cons, ih (f + 2 ^ nbitsOf f l) l (by omega)]
      dsimp
      rw [hss]
      omega
    · rw [if_neg hfl]
      simp
      omega

theorem summarize_shape (f l : Nat) : ∀ b ∈ summarize f l,
    b.prefixLen ≤ 32 ∧ 2 ^ (32 - b.prefixLen) ∣ b.network ∧ f ≤ b.network ∧
      b.network + 2 ^ (32 - b.prefixLen) ≤ l + 1 :=
  summarizeAux_shape (l + 1 - f) f l (Nat.le_refl _)

theorem summarize_cover (f l : Nat) (a : Nat) (ha1 : f ≤ a) (ha2 : a ≤ l) :
    ∃ b ∈ summarize f l, inBlk b a :=
  summarizeAux_cover (l + 1 - f) f l (Nat.le_refl _) a ha1 ha2

theorem summarize_disjoint (f l : Nat) : List.Pairwise blkDisj (summarize f l) :=
  summarizeAux_disjoint (l + 1 - f) f l (Nat.le_refl _)

theorem summarize_sum (f l : Nat) :
    ((summarize f l).map (fun b => 2 ^ (32 - b.prefixLen))).sum = l + 1 - f :=
  summarizeAux_sum (l + 1 - f) f l (Nat.le_refl _)

/-! ## Properties of subnets(new_prefix=np) -/

theorem subnetsTo_shape (b : Block) (np : Nat) (hp : b.prefixLen ≤ np)
    (hnp : np ≤ 32) (hal : 2 ^ (32 - b.prefixLen) ∣ b.network) :
    ∀ c ∈ subnetsTo b np,
      c.prefixLen = np ∧ 2 ^ (32 - np) ∣ c.network ∧ b.network ≤ c.network ∧
        c.network + 2 ^ (32 - np) ≤ b.network + 2 ^ (32 - b.prefixLen) := by
  intro c hc
  obtain ⟨i, hi, hci⟩ := List.mem_map.mp hc
  have hir : i < 2 ^ (np - b.prefixLen) := List.mem_range.mp hi
  subst hci
  refine ⟨rfl, ?_, Nat.le_add_right _ _, ?_⟩
  · exact dvd_add (dvd_trans (pow_dvd_pow 2 (by omega)) hal) (Dvd.intro i (Nat.mul_comm _ _))
  · dsimp
    have h1 : (i + 1) * 2 ^ (32 - np) ≤ 2 ^ (np - b.prefixLen) * 2 ^ (32 - np) :=
      Nat.mul_le_mul_right _ (by omega)
    have h2 : 2 ^ (np - b.prefixLen) * 2 ^ (32 - np) = 2 ^ (32 - b.prefixLen) := by
      rw [← pow_add]
      congr 1
      omega
    have h3 : i * 2 ^ (32 - np) + 2 ^ (32 - np) = (i + 1) * 2 ^ (32 - np) := by ring
    omega

theorem subnetsTo_cover (b : Block) (np : Nat) (hp : b.prefixLen ≤ np)
    (hnp : np ≤ 32) (hal : 2 ^ (32 - b.prefixLen) ∣ b.network) (a : Nat) :
    (∃ c ∈ subnetsTo b np, inBlk c a) ↔ inBlk b a := by
  constructor
  · intro ⟨c, hc, hin⟩
    have hsh := subnetsTo_shape b np hp hnp hal c hc
    have h2 := hin.2
    rw [hsh.1] at h2
    exact ⟨Nat.le_trans hsh.2.2.1 hin.1, by omega⟩
  · intro ⟨h1, h2⟩
    have hkpos : 0 < 2 ^ (32 - np) := Nat.pos_pow_of_pos _ (by norm_num)
    refine ⟨Block.mk (b.network + (a - b.network) / 2 ^ (32 - np) * 2 ^ (32 - np)) np,
      List.mem_map.mpr ⟨(a - b.network) / 2 ^ (32 - np), List.mem_range.mpr ?_, rfl⟩, ?_, ?_⟩
    · rw [Nat.div_lt_iff_lt_mul hkpos]
      have h3 : 2 ^ (np - b.prefixLen) * 2 ^ (32 - np) = 2 ^ (32 - b.prefixLen) := by
        rw [← pow_add]
        congr 1
        omega
      omega
    · dsimp
      have := Nat.div_mul_le_self (a - b.network) (2 ^ (32 - np))
      omega
    · dsimp
      have hq := Nat.div_add_mod (a - b.network) (2 ^ (32 - np))
      have hm := Nat.mod_lt (a - b.network) hkpos
      have hcm : 2 ^ (32 - np) * ((a - b.network) / 2 ^ (32 - np))
          = (a - b.network) / 2 ^ (32 - np) * 2 ^ (32 - np) := Nat.mul_comm _ _
      omega

theorem subnetsTo_disjoint (b : Block) (np : Nat) :
    List.Pairwise blkDisj (subnetsTo b np) := by
  unfold subnetsTo
  rw [List.pairwise_map]
  refine (List.pairwise_lt_range _).imp ?_
  intro i j hij a hin1 hin2
  have h1 := hin1.2
  have h2 := hin2.1
  dsimp at h1 h2
  have h3 : i * 2 ^ (32 - np) + 2 ^ (32 - np) ≤ j * 2 ^ (32 - np) := by
    have := Nat.mul_le_mul_right (2 ^ (32 - np)) (show i + 1 ≤ j by omega)
    rw [Nat.add_mul, Nat.one_mul] at this
    exact this
  omega

theorem subnetsTo_sum (b : Block) (np : Nat) (hp : b.prefixLen ≤ np) (hnp : np ≤ 32) :
    ((subnetsTo b np).map (fun c => 2 ^ (32 - c.prefixLen))).sum
      = 2 ^ (32 - b.prefixLen) := by
  unfold subnetsTo
  rw [List.map_map]
  have hconst : ((List.range (2 ^ (np - b.prefixLen))).map
      ((fun c : Block => 2 ^ (32 - c.prefixLen)) ∘
        (fun i => Block.mk (b.network + i * 2 ^ (32 - np)) np)))
      = (List.range (2 ^ (np - b.prefixLen))).map (fun _ => 2 ^ (32 - np)) := by
    apply List.map_congr_left
    intro i _
    rfl
  rw [hconst, List.map_const', List.sum_replicate, List.length_range, smul_eq_mul,
    ← pow_add]
  congr 1
  omega

/-! ## Properties of split_range -/

theorem pairwise_flatMap_of {α β : Type} {R : α → α → Prop} {S : β → β → Prop}
    {g : α → List β} :
    ∀ l : List α, l.Pairwise R → (∀ x ∈ l, (g x).Pairwise S) →
      (∀ x ∈ l, ∀ y ∈ l, R x y → ∀ u ∈ g x, ∀ v ∈ g y, S u v) →
      (l.flatMap g).Pairwise S := by
  intro l
  induction l with
  | nil => intro _ _ _; simp
  | cons x t ih =>
    intro hp hin hcross
    obtain ⟨hx, ht⟩ := List.pairwise_cons.mp hp
    rw [List.flatMap_cons x t g, List.pairwise_append]
    refine ⟨hin x (List.mem_cons_self x t), ?_, ?_⟩
    · refine ih ht (fun y hy => hin y (List.mem_cons_of_mem x hy)) ?_
      intro a ha b hb hr
      exact hcross a (List.mem_cons_of_mem x ha) b (List.mem_cons_of_mem x hb) hr
    · intro u hu v hv
      obtain ⟨y, hy, hvy⟩ := List.mem_flatMap.mp hv
      exact hcross x (List.mem_cons_self x t) y (List.mem_cons_of_mem x hy)
        (hx y hy) u hu v hvy

/-- The per-summarized-net branch of split_range (lines 21-25). -/
def splitBranch (net : Block) : List Block :=
  if net.prefixLen < MIN_SUBNET_PREFIX_LEN then subnetsTo net MIN_SUBNET_PREFIX_LEN
  else [net]

theorem split_range_eq (s e : Nat) :
    split_range s e = (summarize s e).flatMap splitBranch := rfl

/-- Addresses of a produced block lie inside its parent summarized net. -/
theorem splitBranch_sub (net : Block) (_hp : net.prefixLen ≤ 32)
    (hal : 2 ^ (32 - net.prefixLen) ∣ net.network) :
    ∀ b ∈ splitBranch net, ∀ a, inBlk b a → inBlk net a := by
  intro b hb a hin
  unfold splitBranch at hb
  split at hb
  · rename_i hlt
    exact (subnetsTo_cover net MIN_SUBNET_PREFIX_LEN (by omega) (by norm_num [MIN_SUBNET_PREFIX_LEN]) hal a).mp
      ⟨b, hb, hin⟩
  · rw [List.mem_singleton.mp hb] at hin
    exact hin

theorem split_range_shape (s e : Nat) : ∀ b ∈ split_range s e,
    MIN_SUBNET_PREFIX_LEN ≤ b.prefixLen ∧ b.prefixLen ≤ 32 ∧
      2 ^ (32 - b.prefixLen) ∣ b.network := by
  intro b hb
  rw [split_range_eq] at hb
  obtain ⟨net, hnet, hbnet⟩ := List.mem_flatMap.mp hb
  have hsh := summarize_shape s e net hnet
  unfold splitBranch at hbnet
  split at hbnet
  · rename_i hlt
    have hc := subnetsTo_shape net MIN_SUBNET_PREFIX_LEN (by omega)
      (by norm_num [MIN_SUBNET_PREFIX_LEN]) hsh.2.1 b hbnet
    rw [hc.1]
    exact ⟨Nat.le_refl _, by norm_num [MIN_SUBNET_PREFIX_LEN], hc.1 ▸ hc.2.1⟩
  · rw [List.mem_singleton.mp hbnet]
    exact ⟨by omega, hsh.1, hsh.2.1⟩

theorem split_range_cover (s e : Nat) (_hse : s ≤ e) (a : Nat) :
    (∃ b ∈ split_range s e, inBlk b a) ↔ (s ≤ a ∧ a ≤ e) := by
  constructor
  · intro ⟨b, hb, hin⟩
    rw [split_range_eq] at hb
    obtain ⟨net, hnet, hbnet⟩ := List.mem_flatMap.mp hb
    have hsh := summarize_shape s e net hnet
    have hinn := splitBranch_sub net hsh.1 hsh.2.1 b hbnet a hin
    have h1 := hsh.2.2.1
    have h2 := hsh.2.2.2
    exact ⟨Nat.le_trans h1 hinn.1, by have := hinn.2; omega⟩
  · intro ⟨h1, h2⟩
    obtain ⟨net, hnet, hin⟩ := summarize_cover s e a h1 h2
    have hsh := summarize_shape s e net hnet
    by_cases hlt : net.prefixLen < MIN_SUBNET_PREFIX_LEN
    · obtain ⟨c, hc, hcin⟩ := (subnetsTo_cover net MIN_SUBNET_PREFIX_LEN (by omega)
        (by norm_num [MIN_SUBNET_PREFIX_LEN]) hsh.2.1 a).mpr hin
      refine ⟨c, ?_, hcin⟩
      rw [split_range_eq]
      exact List.mem_flatMap.mpr ⟨net, hnet, by unfold splitBranch; rw [if_pos hlt]; exact hc⟩
    · refine ⟨net, ?_, hin⟩
      rw [split_range_eq]
      exact List.mem_flatMap.mpr ⟨net, hnet,
        by unfold splitBranch; rw [if_neg hlt]; exact List.mem_singleton.mpr rfl⟩

theorem split_range_disjoint (s e : Nat) :
    List.Pairwise blkDisj (split_range s e) := by
  rw [split_range_eq]
  refine pairwise_flatMap_of (R := blkDisj) (summarize s e) (summarize_disjoint s e) ?_ ?_
  · intro net _
    unfold splitBranch
    split
    · exact subnetsTo_disjoint net MIN_SUBNET_PREFIX_LEN
    · simp [blkDisj]
  · intro x hx y hy hr u hu v hv a hua hva
    have hshx := summarize_shape s e x hx
    have hshy := summarize_shape s e y hy
    exact hr a (splitBranch_sub x hshx.1 hshx.2.1 u hu a hua)
      (splitBranch_sub y hshy.1 hshy.2.1 v hv a hva)

theorem split_range_sum (s e : Nat) :
    ((split_range s e).map (fun b => 2 ^ (32 - b.prefixLen))).sum = e + 1 - s := by
  rw [split_range_eq]
  have hgen : ∀ L : List Block, (∀ net ∈ L, net.prefixLen ≤ 32) →
      ((L.flatMap splitBranch).map (fun b => 2 ^ (32 - b.prefixLen))).sum
        = (L.map (fun b => 2 ^ (32 - b.prefixLen))).sum := by
    intro L
    induction L with
    | nil => intro _; rfl
    | cons x t ih =>
      intro hsh
      rw [List.flatMap_cons x t splitBranch, List.map_append, List.sum_append,
        List.map_cons, List.sum_cons, ih (fun net hnet => hsh net (List.mem_cons_of_mem x hnet))]
      congr 1
      unfold splitBranch
      split
      · rename_i hlt
        exact subnetsTo_sum x MIN_SUBNET_PREFIX_LEN (by omega)
          (by norm_num [MIN_SUBNET_PREFIX_LEN])
      · simp
  rw [hgen (summarize s e) (fun net hnet => (summarize_shape s e net hnet).1)]
  exact summarize_sum s e

/-! ## Generic facts about the per-block write loops -/

/-- Common shape of the two write loops: fold a per-block entry update over
a list of blocks. `writeEntryField` and `writeCidrNum` are both instances. -/
def writeFold (g : Block → Entry → Entry) (d : Block → Option Entry)
    (cs : List Block) : Block → Option Entry :=
  cs.foldl (fun d c => writeKey d c (g c)) d

theorem writeEntryField_eq_writeFold (f : Entry → Entry) (d : Block → Option Entry)
    (cs : List Block) : writeEntryField f d cs = writeFold (fun _ => f) d cs := rfl

theorem writeCidrNum_eq_writeFold (numAddr : Nat) (d : Block → Option Entry)
    (cs : List Block) :
    writeCidrNum numAddr d cs
      = writeFold
          (fun c en => { en with cidr := some c, num_addr_orig := some numAddr })
          d cs := rfl

theorem writeFold_frame (g : Block → Entry → Entry) :
    ∀ (cs : List Block) (d : Block → Option Entry) (b : Block), b ∉ cs →
      writeFold g d cs b = d b := by
  intro cs
  induction cs with
  | nil => intro d b _; rfl
  | cons c t ih =>
    intro d b hb
    have hbc : b ≠ c := fun h => hb (h ▸ List.mem_cons_self c t)
    have hbt : b ∉ t := fun h => hb (List.mem_cons_of_mem c h)
    show writeFold g (writeKey d c (g c)) t b = d b
    rw [ih _ b hbt]
    unfold writeKey
    rw [if_neg hbc]

theorem writeFold_mem (g : Block → Entry → Entry) :
    ∀ (cs : List Block) (d : Block → Option Entry) (b : Block), b ∈ cs →
      ∃ x, writeFold g d cs b = some (g b x) := by
  intro cs
  induction cs with
  | nil => intro d b hb; simp at hb
  | cons c t ih =>
    intro d b hb
    by_cases hbt : b ∈ t
    · exact ih _ b hbt
    · have hbc : b = c := by
        rcases List.mem_cons.mp hb with h | h
        · exact h
        · exact absurd h hbt
      subst hbc
      refine ⟨(d b).getD Entry.empty, ?_⟩
      show writeFold g (writeKey d b (g b)) t b = some (g b ((d b).getD Entry.empty))
      rw [writeFold_frame g t _ b hbt]
      unfold writeKey
      rw [if_pos rfl]

theorem writeFold_preserves {γ : Type} (o : Entry → γ) (g : Block → Entry → Entry)
    (hg : ∀ c en, o (g c en) = o en) :
    ∀ (cs : List Block) (d : Block → Option Entry) (b : Block),
      o ((writeFold g d cs b).getD Entry.empty) = o ((d b).getD Entry.empty) := by
  intro cs
  induction cs with
  | nil => intro d b; rfl
  | cons c t ih =>
    intro d b
    show o ((writeFold g (writeKey d c (g c)) t b).getD Entry.empty) = _
    rw [ih (writeKey d c (g c)) b]
    unfold writeKey
    by_cases hbc : b = c
    · rw [if_pos hbc, hbc]
      simp [hg]
    · rw [if_neg hbc]

theorem writeFold_isSome (g : Block → Entry → Entry) :
    ∀ (cs : List Block) (d : Block → Option Entry) (b : Block),
      (d b).isSome = true → (writeFold g d cs b).isSome = true := by
  intro cs
  induction cs with
  | nil => intro d b h; exact h
  | cons c t ih =>
    intro d b h
    show (writeFold g (writeKey d c (g c)) t b).isSome = true
    refine ih (writeKey d c (g c)) b ?_
    unfold writeKey
    by_cases hbc : b = c
    · rw [if_pos hbc]; rfl
    · rw [if_neg hbc]; exact h

/-! ## Claim C2 -/

/-- C2: for every valid pair start ≤ end, split_range returns pairwise
non-overlapping blocks whose union of addresses is exactly {start..end},
none coarser than MIN_SUBNET_PREFIX (16); summarized blocks coarser than
the minimum are subdivided into the full set of blocks at exactly that
specificity, and blocks already at or finer than it pass through
unchanged. -/
theorem C2_split_range_correct (s e : Nat) (hse : s ≤ e) (_he : e < 2 ^ 32) :
    (∀ a, (∃ b ∈ split_range s e, containsAddr b a) ↔ (s ≤ a ∧ a ≤ e)) ∧
    List.Pairwise (fun b1 b2 => ∀ a, containsAddr b1 a → ¬ containsAddr b2 a)
      (split_range s e) ∧
    (∀ b ∈ split_range s e, MIN_SUBNET_PREFIX_LEN ≤ b.prefixLen) ∧
    (∀ net ∈ summarize s e,
      (net.prefixLen < MIN_SUBNET_PREFIX_LEN →
        ∀ c ∈ subnetsTo net MIN_SUBNET_PREFIX_LEN, c ∈ split_range s e) ∧
      (MIN_SUBNET_PREFIX_LEN ≤ net.prefixLen → net ∈ split_range s e)) := by
  refine ⟨?_, ?_, ?_, ?_⟩
  · intro a
    rw [← split_range_cover s e hse a]
    constructor
    · intro ⟨b, hb, hc⟩
      exact ⟨b, hb, (containsAddr_iff_inBlk b (split_range_shape s e b hb).2.2 a).mp hc⟩
    · intro ⟨b, hb, hc⟩
      exact ⟨b, hb, (containsAddr_iff_inBlk b (split_range_shape s e b hb).2.2 a).mpr hc⟩
  · refine List.Pairwise.imp_of_mem ?_ (split_range_disjoint s e)
    intro b1 b2 h1 h2 hd a hc1 hc2
    exact hd a ((containsAddr_iff_inBlk b1 (split_range_shape s e b1 h1).2.2 a).mp hc1)
      ((containsAddr_iff_inBlk b2 (split_range_shape s e b2 h2).2.2 a).mp hc2)
  · intro b hb
    exact (split_range_shape s e b hb).1
  · intro net hnet
    constructor
    · intro hlt c hc
      rw [split_range_eq]
      exact List.mem_flatMap.mpr ⟨net, hnet,
        by unfold splitBranch; rw [if_pos hlt]; exact hc⟩
    · intro hge
      rw [split_range_eq]
      refine List.mem_flatMap.mpr ⟨net, hnet, ?_⟩
      unfold splitBranch
      rw [if_neg (by omega)]
      exact List.mem_singleton.mpr rfl

/-- Witness for C2 at the concrete range 3..10. -/
theorem C2_split_range_correct_witness :
    (∀ a, (∃ b ∈ split_range 3 10, containsAddr b a) ↔ (3 ≤ a ∧ a ≤ 10)) ∧
    List.Pairwise (fun b1 b2 => ∀ a, containsAddr b1 a → ¬ containsAddr b2 a)
      (split_range 3 10) ∧
    (∀ b ∈ split_range 3 10, MIN_SUBNET_PREFIX_LEN ≤ b.prefixLen) ∧
    (∀ net ∈ summarize 3 10,
      (net.prefixLen < MIN_SUBNET_PREFIX_LEN →
        ∀ c ∈ subnetsTo net MIN_SUBNET_PREFIX_LEN, c ∈ split_range 3 10) ∧
      (MIN_SUBNET_PREFIX_LEN ≤ net.prefixLen → net ∈ split_range 3 10)) :=
  C2_split_range_correct 3 10 (by decide) (by decide)

/-! ## Claim C7 -/

/-- num_addr of line 69: the total address count of the split blocks of a
range. -/
def num_addr (s e : Nat) : Nat :=
  ((split_range s e).map (fun b => 2 ^ (32 - b.prefixLen))).sum

/-- C7: for every inetnum record with start ≤ end, the num_addr value
written as num_addr_orig to each block populated from the record equals the
size of the original pre-split range, end - start + 1, and it is the same
value for every populated block. -/
theorem C7_num_addr_orig (s e : Nat) (hse : s ≤ e) (d : Block → Option Entry) :
    num_addr s e = e - s + 1 ∧
    ∀ b ∈ (resolveWrite d (split_range s e) (num_addr s e)).2,
      (((resolveWrite d (split_range s e) (num_addr s e)).1 b).getD
          Entry.empty).num_addr_orig = some (e - s + 1) := by
  have hsum : num_addr s e = e - s + 1 := by
    unfold num_addr
    rw [split_range_sum s e]
    omega
  refine ⟨hsum, ?_⟩
  intro b hb
  unfold resolveWrite at hb ⊢
  dsimp only at hb ⊢
  rw [writeCidrNum_eq_writeFold]
  obtain ⟨x, hx⟩ := writeFold_mem
    (fun c en => { en with cidr := some c, num_addr_orig := some (num_addr s e) })
    ((split_range s e).filter (fun c => ! dropNew (d c) (num_addr s e))) d b hb
  rw [hx, hsum]
  rfl

/-- Witness for C7 at the concrete range 0..99 over the empty table. -/
theorem C7_num_addr_orig_witness :
    num_addr 0 99 = 99 - 0 + 1 ∧
    ∀ b ∈ (resolveWrite (fun _ => none) (split_range 0 99) (num_addr 0 99)).2,
      (((resolveWrite (fun _ => none) (split_range 0 99) (num_addr 0 99)).1 b).getD
          Entry.empty).num_addr_orig = some (99 - 0 + 1) :=
  C7_num_addr_orig 0 99 (by decide) (fun _ => none)

/-! ## Claim C1 -/

/-- find? returns the first element satisfying the predicate: every other
satisfying element equals the result or follows it in pairwise order. -/
theorem find_first_of_pairwise {α : Type} (R : α → α → Prop) (f : α → Bool) :
    ∀ (l : List α) (b : α), l.Pairwise R → l.find? f = some b →
      ∀ x ∈ l, f x = true → x = b ∨ R b x := by
  intro l
  induction l with
  | nil => intro b _ hf; simp at hf
  | cons c t ih =>
    intro b hp hf x hx hfx
    obtain ⟨hc, ht⟩ := List.pairwise_cons.mp hp
    by_cases hfc : f c = true
    · rw [List.find?_cons_of_pos _ hfc] at hf
      have hbc : c = b := by injection hf
      subst hbc
      rcases List.mem_cons.mp hx with h | h
      · exact Or.inl h
      · exact Or.inr (hc x h)
    · rw [List.find?_cons_of_neg _ (by simpa using hfc)] at hf
      rcases List.mem_cons.mp hx with h | h
      · rw [h] at hfx
        exact absurd hfx hfc
      · exact ih b ht hf x h hfx

/-- The candidate prefix lengths of guess_subnets strictly decrease. -/
theorem guess_subnets_pairwise (ip : Nat) :
    List.Pairwise (fun b1 b2 : Block => b2.prefixLen < b1.prefixLen)
      (guess_subnets ip) := by
  unfold guess_subnets
  rw [List.pairwise_map]
  rw [List.pairwise_iff_getElem]
  intro i j hi hj hij
  rw [List.length_range] at hi hj
  simp only [List.getElem_range]
  omega

theorem guess_subnets_mem_iff (ip : Nat) (b : Block) :
    b ∈ guess_subnets ip ↔
      7 ≤ b.prefixLen ∧ b.prefixLen ≤ 31 ∧ b.network = mask ip b.prefixLen := by
  unfold guess_subnets
  constructor
  · intro hb
    obtain ⟨i, hi, hbi⟩ := List.mem_map.mp hb
    have hir : i < 25 := List.mem_range.mp hi
    subst hbi
    refine ⟨by dsimp; omega, by dsimp; omega, rfl⟩
  · intro ⟨h7, h31, hn⟩
    refine List.mem_map.mpr ⟨31 - b.prefixLen, List.mem_range.mpr (by omega), ?_⟩
    have hp : 31 - (31 - b.prefixLen) = b.prefixLen := by omega
    rw [hp, ← hn]

/-- Concrete table of the spec example: 10.0.0.0/8 and 10.1.0.0/16. -/
def exTable : Block → Bool :=
  fun c => decide (c = Block.mk 167772160 8) || decide (c = Block.mk 167837696 16)

/-- C1: the lookup driven by guess_subnets probes the candidates
(ip masked to p, p) for p = 31 down to 7 and takes the first hit, so it
returns the most specific table block containing the address among blocks
with prefix length in the probed range 7..31, and misses iff no such block
exists; in particular for a table holding 10.0.0.0/8 and 10.1.0.0/16,
looking up 10.1.2.3 returns the /16 block. -/
theorem C1_lookup_most_specific (isMem : Block → Bool) (ip : Nat) :
    (∀ b, guessFind isMem ip = some b →
      isMem b = true ∧ containsAddr b ip ∧ 7 ≤ b.prefixLen ∧ b.prefixLen ≤ 31 ∧
        ∀ b2, isMem b2 = true → containsAddr b2 ip → 7 ≤ b2.prefixLen →
          b2.prefixLen ≤ 31 → b2.prefixLen ≤ b.prefixLen) ∧
    (guessFind isMem ip = none →
      ∀ b2, isMem b2 = true → 7 ≤ b2.prefixLen → b2.prefixLen ≤ 31 →
        ¬ containsAddr b2 ip) ∧
    guessFind exTable 167838211 = some (Block.mk 167837696 16) := by
  refine ⟨?_, ?_, by decide⟩
  · intro b hb
    have hbmem : b ∈ guess_subnets ip := List.mem_of_find?_eq_some hb
    have hbsh := (guess_subnets_mem_iff ip b).mp hbmem
    refine ⟨List.find?_some hb, hbsh.2.2.symm, hbsh.1, hbsh.2.1, ?_⟩
    intro b2 hm2 hc2 h27 h231
    have hb2mem : b2 ∈ guess_subnets ip :=
      (guess_subnets_mem_iff ip b2).mpr ⟨h27, h231, hc2.symm⟩
    rcases find_first_of_pairwise _ isMem (guess_subnets ip) b
        (guess_subnets_pairwise ip) hb b2 hb2mem hm2 with h | h
    · rw [h]
    · omega
  · intro hnone b2 hm2 h27 h231 hc2
    have hb2mem : b2 ∈ guess_subnets ip :=
      (guess_subnets_mem_iff ip b2).mpr ⟨h27, h231, hc2.symm⟩
    exact absurd hm2 (by simpa using List.find?_eq_none.mp hnone b2 hb2mem)

/-- Witness for C1: the found-block facts at the spec example inputs. -/
theorem C1_lookup_most_specific_witness :
    exTable (Block.mk 167837696 16) = true ∧
    containsAddr (Block.mk 167837696 16) 167838211 ∧
    7 ≤ (Block.mk 167837696 16).prefixLen ∧ (Block.mk 167837696 16).prefixLen ≤ 31 ∧
    ∀ b2, exTable b2 = true → containsAddr b2 167838211 → 7 ≤ b2.prefixLen →
      b2.prefixLen ≤ 31 → b2.prefixLen ≤ (Block.mk 167837696 16).prefixLen :=
  (C1_lookup_most_specific exTable 167838211).1 (Block.mk 167837696 16) (by decide)

/-! ## Claim C9 -/

/-- A one-address range splits to a single /32 block. -/
theorem split_range_single (a : Nat) : split_range a a = [Block.mk a 32] := by
  have h0 : nbitsOf a a = 0 := by
    unfold nbitsOf pyLog2
    have h1 : a - a + 1 = 1 := by omega
    rw [h1]
    simp [log2fuel]
  have hsum : summarize a a = [Block.mk a 32] := by
    unfold summarize
    have h1 : a + 1 - a = 1 := by omega
    rw [h1]
    simp [summarizeAux, h0]
  rw [split_range_eq, hsum]
  rfl

/-- C9: the counting pass never touches an entry keyed by a /32 block (or
any prefix outside 7..31): guess_subnets only emits prefix lengths 31 down
to 7, split_range does put /32 blocks in the table for single-address
ranges, and an address whose only containing table blocks are /32 entries
is a miss that leaves the whole table unchanged. -/
theorem C9_counting_frame (networks : Block → Option Entry) (ip a : Nat)
    (h : ∀ b, (networks b).isSome = true → containsAddr b ip → b.prefixLen = 32) :
    countStep networks ip = networks ∧
    (∀ b ∈ guess_subnets ip, 7 ≤ b.prefixLen ∧ b.prefixLen ≤ 31) ∧
    split_range a a = [Block.mk a 32] := by
  refine ⟨?_, ?_, split_range_single a⟩
  · unfold countStep
    have hnone : guessFind (fun c => (networks c).isSome) ip = none := by
      rw [guessFind, List.find?_eq_none]
      intro c hc hcs
      have hsh := (guess_subnets_mem_iff ip c).mp hc
      have hcc : containsAddr c ip := hsh.2.2.symm
      have := h c (by simpa using hcs) hcc
      omega
    rw [hnone]
  · intro b hb
    have hsh := (guess_subnets_mem_iff ip b).mp hb
    exact ⟨hsh.1, hsh.2.1⟩

/-- A table holding only the /32 entry 0.0.0.5/32. -/
def c9table : Block → Option Entry :=
  fun b => if b = Block.mk 5 32 then some Entry.empty else none

/-- Witness for C9: only /32 entries contain address 5, so counting 5
leaves the table unchanged. -/
theorem C9_counting_frame_witness :
    (∀ b, (c9table b).isSome = true → containsAddr b 5 → b.prefixLen = 32) ∧
    (countStep c9table 5 = c9table ∧
      (∀ b ∈ guess_subnets 5, 7 ≤ b.prefixLen ∧ b.prefixLen ≤ 31) ∧
      split_range 5 5 = [Block.mk 5 32]) := by
  have hp : ∀ b, (c9table b).isSome = true → containsAddr b 5 → b.prefixLen = 32 := by
    intro b hb _
    unfold c9table at hb
    by_cases hbe : b = Block.mk 5 32
    · rw [hbe]
    · rw [if_neg hbe] at hb
      simp at hb
  exact ⟨hp, C9_counting_frame c9table 5 5 hp⟩

/-! ## Claims C3 and C4: the overlap resolver -/

theorem setAttr_inetnum_netname (v : List Char) (en : Entry) :
    (setAttr "inetnum".data v en).netname = en.netname := by
  unfold setAttr
  rw [if_pos rfl]

theorem setAttr_inetnum_num (v : List Char) (en : Entry) :
    (setAttr "inetnum".data v en).num_addr_orig = en.num_addr_orig := by
  unfold setAttr
  rw [if_pos rfl]

theorem setAttr_netname_netname (v : List Char) (en : Entry) :
    (setAttr "netname".data v en).netname = some (String.mk v) := by
  unfold setAttr
  rw [if_neg (by decide), if_pos rfl]

theorem setAttr_netname_num (v : List Char) (en : Entry) :
    (setAttr "netname".data v en).num_addr_orig = en.num_addr_orig := by
  unfold setAttr
  rw [if_neg (by decide), if_pos rfl]

/-- The table effect of one minimal record: an inetnum line whose range
split to rng with declared size numAddr, followed by one netname line.
This is the composition of lines 66-83 as performed by loadKeyed: overlap
filter, cidr/num_addr_orig writes, inetnum attribute write over the kept
blocks, then the netname attribute write over the same kept blocks. -/
def applyRec (d : Block → Option Entry) (rng : List Block) (numAddr : Nat)
    (iv nm : List Char) : (Block → Option Entry) × List Block :=
  let dr := resolveWrite d rng numAddr
  let d2 := writeEntryField (setAttr "inetnum".data iv) dr.1 dr.2
  let d3 := writeEntryField (setAttr "netname".data nm) d2 dr.2
  (d3, dr.2)

/-- When the drop condition does not fire, the record's data lands on the
block: entry present, netname and num_addr_orig set from the record. -/
theorem applyRec_write (d : Block → Option Entry) (rng : List Block)
    (numAddr : Nat) (iv nm : List Char) (b : Block) (hb : b ∈ rng)
    (hdrop : dropNew (d b) numAddr = false) :
    ((applyRec d rng numAddr iv nm).1 b).isSome = true ∧
    (((applyRec d rng numAddr iv nm).1 b).getD Entry.empty).netname
        = some (String.mk nm) ∧
    (((applyRec d rng numAddr iv nm).1 b).getD Entry.empty).num_addr_orig
        = some numAddr := by
  unfold applyRec resolveWrite
  dsimp only
  rw [writeCidrNum_eq_writeFold, writeEntryField_eq_writeFold,
    writeEntryField_eq_writeFold]
  have hb2 : b ∈ rng.filter (fun c => ! dropNew (d c) numAddr) :=
    List.mem_filter.mpr ⟨hb, by rw [hdrop]; rfl⟩
  refine ⟨?_, ?_, ?_⟩
  · refine writeFold_isSome _ _ _ b (writeFold_isSome _ _ _ b ?_)
    obtain ⟨x, hx⟩ := writeFold_mem
      (fun c en => { en with cidr := some c, num_addr_orig := some numAddr })
      _ d b hb2
    rw [hx]
    rfl
  · obtain ⟨x, hx⟩ := writeFold_mem (fun _ => setAttr "netname".data nm) _ _ b hb2
    rw [hx]
    exact setAttr_netname_netname nm x
  · rw [writeFold_preserves Entry.num_addr_orig _
      (fun c en => setAttr_netname_num nm en) _ _ b]
    rw [writeFold_preserves Entry.num_addr_orig _
      (fun c en => setAttr_inetnum_num iv en) _ _ b]
    obtain ⟨x, hx⟩ := writeFold_mem
      (fun c en => { en with cidr := some c, num_addr_orig := some numAddr })
      _ d b hb2
    rw [hx]
    rfl

/-- When the drop condition fires, the block is dropped from the kept set
and its table entry is untouched by all three write loops. -/
theorem applyRec_drop (d : Block → Option Entry) (rng : List Block)
    (numAddr : Nat) (iv nm : List Char) (b : Block)
    (hdrop : dropNew (d b) numAddr = true) :
    b ∉ (applyRec d rng numAddr iv nm).2 ∧
    (applyRec d rng numAddr iv nm).1 b = d b := by
  unfold applyRec resolveWrite
  dsimp only
  have hnb : b ∉ rng.filter (fun c => ! dropNew (d c) numAddr) := by
    intro hmem
    have := (List.mem_filter.mp hmem).2
    rw [hdrop] at this
    simp at this
  refine ⟨hnb, ?_⟩
  rw [writeCidrNum_eq_writeFold, writeEntryField_eq_writeFold,
    writeEntryField_eq_writeFold]
  rw [writeFold_frame _ _ _ b hnb, writeFold_frame _ _ _ b hnb,
    writeFold_frame _ _ _ b hnb]

/-- C3: when two records produce the same block, one with
original_range_size 100 and one with 50, the final entry for that block
carries the size-50 record's data (netname and num_addr_orig), in either
load order. -/
theorem C3_smaller_range_wins (d0 : Block → Option Entry) (rngA rngB : List Block)
    (b : Block) (ia ib nmA nmB : List Char)
    (hA : b ∈ rngA) (hB : b ∈ rngB) (h0 : d0 b = none) :
    ((((applyRec (applyRec d0 rngA 100 ia nmA).1 rngB 50 ib nmB).1 b).getD
        Entry.empty).netname = some (String.mk nmB) ∧
     (((applyRec (applyRec d0 rngA 100 ia nmA).1 rngB 50 ib nmB).1 b).getD
        Entry.empty).num_addr_orig = some 50) ∧
    ((((applyRec (applyRec d0 rngB 50 ib nmB).1 rngA 100 ia nmA).1 b).getD
        Entry.empty).netname = some (String.mk nmB) ∧
     (((applyRec (applyRec d0 rngB 50 ib nmB).1 rngA 100 ia nmA).1 b).getD
        Entry.empty).num_addr_orig = some 50) := by
  have hd100 : dropNew (d0 b) 100 = false := by rw [h0]; rfl
  have hd50 : dropNew (d0 b) 50 = false := by rw [h0]; rfl
  constructor
  · have hA1 := applyRec_write d0 rngA 100 ia nmA b hA hd100
    obtain ⟨enA, henA⟩ := Option.isSome_iff_exists.mp hA1.1
    have hnumA : enA.num_addr_orig = some 100 := by
      have h := hA1.2.2
      rw [henA] at h
      exact h
    have hdropB : dropNew ((applyRec d0 rngA 100 ia nmA).1 b) 50 = false := by
      rw [henA]
      simp [dropNew, hnumA]
    have hB1 := applyRec_write _ rngB 50 ib nmB b hB hdropB
    exact ⟨hB1.2.1, hB1.2.2⟩
  · have hB1 := applyRec_write d0 rngB 50 ib nmB b hB hd50
    obtain ⟨enB, henB⟩ := Option.isSome_iff_exists.mp hB1.1
    have hnumB : enB.num_addr_orig = some 50 := by
      have h := hB1.2.2
      rw [henB] at h
      exact h
    have hdropA : dropNew ((applyRec d0 rngB 50 ib nmB).1 b) 100 = true := by
      rw [henB]
      simp [dropNew, hnumB]
    have hA2 := applyRec_drop _ rngA 100 ia nmA b hdropA
    rw [hA2.2]
    exact ⟨hB1.2.1, hB1.2.2⟩

/-- Witness for C3 at a concrete block and names. -/
theorem C3_smaller_range_wins_witness :
    ((((applyRec (applyRec (fun _ => none) [Block.mk 96 30] 100 [] "NET-A".data).1
          [Block.mk 96 30] 50 [] "NET-B".data).1 (Block.mk 96 30)).getD
        Entry.empty).netname = some (String.mk "NET-B".data) ∧
     (((applyRec (applyRec (fun _ => none) [Block.mk 96 30] 100 [] "NET-A".data).1
          [Block.mk 96 30] 50 [] "NET-B".data).1 (Block.mk 96 30)).getD
        Entry.empty).num_addr_orig = some 50) ∧
    ((((applyRec (applyRec (fun _ => none) [Block.mk 96 30] 50 [] "NET-B".data).1
          [Block.mk 96 30] 100 [] "NET-A".data).1 (Block.mk 96 30)).getD
        Entry.empty).netname = some (String.mk "NET-B".data) ∧
     (((applyRec (applyRec (fun _ => none) [Block.mk 96 30] 50 [] "NET-B".data).1
          [Block.mk 96 30] 100 [] "NET-A".data).1 (Block.mk 96 30)).getD
        Entry.empty).num_addr_orig = some 50) := by
  have h := C3_smaller_range_wins (fun _ => none) [Block.mk 96 30] [Block.mk 96 30]
    (Block.mk 96 30) [] [] "NET-A".data "NET-B".data
    (List.mem_singleton.mpr rfl) (List.mem_singleton.mpr rfl) rfl
  constructor
  · exact ⟨h.1.1, h.1.2⟩
  · exact ⟨h.2.1, h.2.2⟩

/-- C4 (amended): for a newly split block, the existing entry wins (the
block is dropped and its entry untouched) iff the entry exists with
original_range_size strictly smaller than the new record's; otherwise —
including an exact tie — the block is kept and the new cidr and
num_addr_orig overwrite the entry. -/
theorem C4_overlap_resolution (d : Block → Option Entry) (rng : List Block)
    (numAddr : Nat) (c : Block) (hc : c ∈ rng) :
    (∀ en m, d c = some en → en.num_addr_orig = some m → m < numAddr →
      c ∉ (resolveWrite d rng numAddr).2 ∧
        (resolveWrite d rng numAddr).1 c = d c) ∧
    ((d c = none ∨ ∃ en m, d c = some en ∧ en.num_addr_orig = some m ∧ numAddr ≤ m) →
      c ∈ (resolveWrite d rng numAddr).2 ∧
      ∃ x : Entry, (resolveWrite d rng numAddr).1 c
        = some { x with cidr := some c, num_addr_orig := some numAddr }) := by
  constructor
  · intro en m h1 h2 h3
    have hdrop : dropNew (d c) numAddr = true := by
      simp [dropNew, h1, h2, h3]
    unfold resolveWrite
    dsimp only
    have hnc : c ∉ rng.filter (fun x => ! dropNew (d x) numAddr) := by
      intro hmem
      have h4 := (List.mem_filter.mp hmem).2
      rw [hdrop] at h4
      simp at h4
    refine ⟨hnc, ?_⟩
    rw [writeCidrNum_eq_writeFold, writeFold_frame _ _ _ c hnc]
  · intro hcase
    have hdrop : dropNew (d c) numAddr = false := by
      rcases hcase with h | ⟨en, m, h1, h2, h3⟩
      · rw [h]; rfl
      · simp [dropNew, h1, h2]
        omega
    unfold resolveWrite
    dsimp only
    have hc2 : c ∈ rng.filter (fun x => ! dropNew (d x) numAddr) :=
      List.mem_filter.mpr ⟨hc, by rw [hdrop]; rfl⟩
    refine ⟨hc2, ?_⟩
    rw [writeCidrNum_eq_writeFold]
    exact writeFold_mem _ _ d c hc2

/-- Concrete table for the C4 witness: one entry of size 64 at 0.0.0.0/26. -/
def c4table : Block → Option Entry :=
  fun b =>
    if b = Block.mk 0 26 then some ⟨none, some 64, none, none, none, none, none⟩
    else none

/-- Witness for C4 (amended) at an exact tie: the block stays in the kept
set and is overwritten. -/
theorem C4_overlap_resolution_witness :
    (∀ en m, c4table (Block.mk 0 26) = some en → en.num_addr_orig = some m →
      m < 64 →
      Block.mk 0 26 ∉ (resolveWrite c4table [Block.mk 0 26] 64).2 ∧
        (resolveWrite c4table [Block.mk 0 26] 64).1 (Block.mk 0 26)
          = c4table (Block.mk 0 26)) ∧
    ((c4table (Block.mk 0 26) = none ∨
        ∃ en m, c4table (Block.mk 0 26) = some en ∧ en.num_addr_orig = some m ∧
          64 ≤ m) →
      Block.mk 0 26 ∈ (resolveWrite c4table [Block.mk 0 26] 64).2 ∧
      ∃ x : Entry, (resolveWrite c4table [Block.mk 0 26] 64).1 (Block.mk 0 26)
        = some { x with cidr := some (Block.mk 0 26), num_addr_orig := some 64 }) :=
  C4_overlap_resolution c4table [Block.mk 0 26] 64 (Block.mk 0 26)
    (List.mem_singleton.mpr rfl)

/-- C4 counterexample: two records with identical ranges (exact tie in
original_range_size, both 64). The claim says the existing entry NET-A
wins the tie; the code overwrites with the second record NET-B. -/
theorem C4_tie_counterexample :
    loadResultAt (load_networks
      ["inetnum: 0.0.0.0 - 0.0.0.63", "netname: NET-A", "country: AU", "",
       "inetnum: 0.0.0.0 - 0.0.0.63", "netname: NET-B", "country: AU"])
      (Block.mk 0 26)
    = some (some ⟨some (Block.mk 0 26), some 64, some "0.0.0.0 - 0.0.0.63",
        some "NET-B", some "AU", none, none⟩) ∧
    (some "NET-B" : Option String) ≠ some "NET-A" := by
  constructor
  · decide
  · decide

/-! ## Claim C6 -/

theorem keepEntry_true_iff (en : Entry) :
    keepEntry en = true ↔
      ∃ n c, en.netname = some n ∧ en.country = some c ∧
        n ∉ ["IANA-BLOCK", "ARIN-CIDR-BLOCK", "RIPE-CIDR-BLOCK", "ERX-NETBLOCK"] ∧
        "IANA-NETBLOCK".data.isPrefixOf n.data = false ∧
        "STUB-".data.isPrefixOf n.data = false ∧
        c ≠ "ZZ" := by
  unfold keepEntry
  cases hn : en.netname with
  | none => simp
  | some n =>
    cases hc : en.country with
    | none => simp
    | some c =>
      simp only [Bool.and_eq_true, Bool.not_eq_true']
      constructor
      · intro ⟨⟨⟨h1, h2⟩, h3⟩, h4⟩
        simp only [List.contains_eq_any_beq] at h1
        refine ⟨n, c, rfl, rfl, ?_, h2, h3, ?_⟩
        · intro hmem
          simp only [List.mem_cons, List.not_mem_nil, or_false] at hmem
          rcases hmem with rfl | rfl | rfl | rfl <;> exact absurd h1 (by decide)
        · intro hzz
          rw [hzz] at h4
          exact absurd h4 (by decide)
      · intro ⟨n2, c2, hn2, hc2, h1, h2, h3, h4⟩
        injection hn2 with hnn
        injection hc2 with hcc
        subst hnn hcc
        refine ⟨⟨⟨?_, h2⟩, h3⟩, ?_⟩
        · simp only [List.contains_eq_any_beq]
          rw [List.any_eq_false]
          intro x hx hbeq
          rw [← eq_of_beq hbeq] at hx
          exact h1 hx
        · simp [h4]

/-- C6: after the filter pass no entry has a placeholder netname
(IANA-BLOCK, ARIN-CIDR-BLOCK, RIPE-CIDR-BLOCK, ERX-NETBLOCK, or a prefix
IANA-NETBLOCK or STUB-) and none has country ZZ; every entry with both
fields present that fails all placeholder conditions is retained. In
particular IANA-NETBLOCK-10 is removed, EXAMPLE-NET with country US is
retained, and country ZZ is removed regardless of netname. -/
theorem C6_filter_invariant (d : Block → Option Entry) (b : Block) :
    (∀ en, blockFilter d b = some en →
      ∃ n c, en.netname = some n ∧ en.country = some c ∧
        n ∉ ["IANA-BLOCK", "ARIN-CIDR-BLOCK", "RIPE-CIDR-BLOCK", "ERX-NETBLOCK"] ∧
        "IANA-NETBLOCK".data.isPrefixOf n.data = false ∧
        "STUB-".data.isPrefixOf n.data = false ∧
        c ≠ "ZZ") ∧
    (∀ en n c, d b = some en → en.netname = some n → en.country = some c →
      n ∉ ["IANA-BLOCK", "ARIN-CIDR-BLOCK", "RIPE-CIDR-BLOCK", "ERX-NETBLOCK"] →
      "IANA-NETBLOCK".data.isPrefixOf n.data = false →
      "STUB-".data.isPrefixOf n.data = false →
      c ≠ "ZZ" → blockFilter d b = some en) ∧
    blockFilter
      (fun _ => some ⟨none, none, none, some "IANA-NETBLOCK-10", some "US", none, none⟩)
      b = none ∧
    blockFilter
      (fun _ => some ⟨none, none, none, some "EXAMPLE-NET", some "US", none, none⟩)
      b = some ⟨none, none, none, some "EXAMPLE-NET", some "US", none, none⟩ ∧
    blockFilter
      (fun _ => some ⟨none, none, none, some "EXAMPLE-NET", some "ZZ", none, none⟩)
      b = none := by
  refine ⟨?_, ?_, ?_, ?_, ?_⟩
  · intro en hen
    unfold blockFilter at hen
    cases hd : d b with
    | none => rw [hd] at hen; exact absurd hen (by simp)
    | some en0 =>
      rw [hd] at hen
      dsimp only at hen
      by_cases hk : keepEntry en0 = true
      · rw [if_pos hk] at hen
        have hee : en0 = en := by injection hen
        subst hee
        exact (keepEntry_true_iff en0).mp hk
      · rw [if_neg hk] at hen
        exact absurd hen (by simp)
  · intro en n c h1 h2 h3 h4 h5 h6 h7
    unfold blockFilter
    rw [h1]
    dsimp only
    rw [if_pos ((keepEntry_true_iff en).mpr ⟨n, c, h2, h3, h4, h5, h6, h7⟩)]
  · unfold blockFilter
    dsimp only
    rw [if_neg (by decide)]
  · unfold blockFilter
    dsimp only
    rw [if_pos (by decide)]
  · unfold blockFilter
    dsimp only
    rw [if_neg (by decide)]

/-- Witness for C6 at the empty table and a concrete block. -/
theorem C6_filter_invariant_witness :
    ∃ n c, (⟨none, none, none, some "EXAMPLE-NET", some "US", none,
        none⟩ : Entry).netname = some n ∧
      (⟨none, none, none, some "EXAMPLE-NET", some "US", none,
        none⟩ : Entry).country = some c ∧
      n ∉ ["IANA-BLOCK", "ARIN-CIDR-BLOCK", "RIPE-CIDR-BLOCK", "ERX-NETBLOCK"] ∧
      "IANA-NETBLOCK".data.isPrefixOf n.data = false ∧
      "STUB-".data.isPrefixOf n.data = false ∧
      c ≠ "ZZ" :=
  (C6_filter_invariant
      (fun _ => some ⟨none, none, none, some "EXAMPLE-NET", some "US", none, none⟩)
      (Block.mk 0 16)).1
    ⟨none, none, none, some "EXAMPLE-NET", some "US", none, none⟩
    ((C6_filter_invariant
      (fun _ => some ⟨none, none, none, some "EXAMPLE-NET", some "US", none, none⟩)
      (Block.mk 0 16)).2.2.2.1)

/-! ## Claims C5, C8, C10: line handling -/

theorem setAttr_descr_descr (v : List Char) (en : Entry) :
    (setAttr "descr".data v en).descr = some (String.mk v) := by
  unfold setAttr
  rw [if_neg (by decide), if_neg (by decide), if_neg (by decide), if_pos rfl]

/-- Reduction of loadLine to loadKeyed on a non-comment, non-blank line
with a recognized key and a present value chunk. -/
theorem loadLine_eq_loadKeyed (st : LoadState) (line : String) (key raw : List Char)
    (hhash : startsWithHash line.data = false)
    (hblank : pyStrip line.data ≠ [])
    (hkey : pyStrip (pySplit ':' line.data).headI = key)
    (hmem : key ∈ recognizedKeys)
    (hval : (pySplit ':' line.data).get? 1 = some raw) :
    loadLine st line = loadKeyed st key (pyStrip raw) := by
  unfold loadLine
  rw [if_neg (show ¬(startsWithHash line.data = true) by rw [hhash]; simp)]
  rw [if_neg hblank]
  dsimp only
  rw [hkey, if_pos hmem, hval]

/-- C5 (amended): a descr line is skipped iff the previously processed
recognized line was also a descr (prev_key, which survives blank, comment
and unrecognized lines); any other descr line is written to every block of
the active range, overwriting an earlier stored description. -/
theorem C5_descr_consecutive_only (st : LoadState) (line : String) (raw : List Char)
    (hhash : startsWithHash line.data = false)
    (hblank : pyStrip line.data ≠ [])
    (hkey : pyStrip (pySplit ':' line.data).headI = "descr".data)
    (hval : (pySplit ':' line.data).get? 1 = some raw) :
    (st.prev_key = some "descr".data → loadLine st line = .ok st) ∧
    (st.prev_key ≠ some "descr".data → ∀ rng, st.current_range = some rng →
      loadLine st line
        = .ok { st with
            data := writeEntryField (setAttr "descr".data (pyStrip raw)) st.data rng,
            prev_key := some "descr".data } ∧
      ∀ b ∈ rng,
        ((writeEntryField (setAttr "descr".data (pyStrip raw)) st.data rng b).getD
          Entry.empty).descr = some (String.mk (pyStrip raw))) := by
  have hred := loadLine_eq_loadKeyed st line "descr".data raw hhash hblank hkey
    (by decide) hval
  constructor
  · intro hprev
    rw [hred]
    unfold loadKeyed
    rw [if_pos ⟨rfl, hprev⟩]
  · intro hprev rng hrng
    refine ⟨?_, ?_⟩
    · rw [hred]
      unfold loadKeyed
      rw [if_neg (fun h => hprev h.2), if_neg (by decide), hrng]
    · intro b hb
      rw [writeEntryField_eq_writeFold]
      obtain ⟨x, hx⟩ := writeFold_mem (fun _ => setAttr "descr".data (pyStrip raw))
        rng st.data b hb
      rw [hx]
      exact setAttr_descr_descr (pyStrip raw) x

/-- Witness for C5 on a concrete state with an active range. -/
theorem C5_descr_consecutive_only_witness :
    ((⟨fun _ => none, some [Block.mk 0 32], none⟩ : LoadState).prev_key
        = some "descr".data →
      loadLine ⟨fun _ => none, some [Block.mk 0 32], none⟩ "descr: X"
        = .ok ⟨fun _ => none, some [Block.mk 0 32], none⟩) ∧
    ((⟨fun _ => none, some [Block.mk 0 32], none⟩ : LoadState).prev_key
        ≠ some "descr".data →
      ∀ rng, (⟨fun _ => none, some [Block.mk 0 32], none⟩ : LoadState).current_range
        = some rng →
      loadLine ⟨fun _ => none, some [Block.mk 0 32], none⟩ "descr: X"
        = .ok { (⟨fun _ => none, some [Block.mk 0 32], none⟩ : LoadState) with
            data := writeEntryField (setAttr "descr".data (pyStrip " X".data))
              (fun _ => none) rng,
            prev_key := some "descr".data } ∧
      ∀ b ∈ rng,
        ((writeEntryField (setAttr "descr".data (pyStrip " X".data))
            (fun _ => none) rng b).getD Entry.empty).descr
          = some (String.mk (pyStrip " X".data))) :=
  C5_descr_consecutive_only ⟨fun _ => none, some [Block.mk 0 32], none⟩
    "descr: X" " X".data (by decide) (by decide) (by decide) (by decide)

/-- C5 counterexample: a later descr line separated from the first by a
country line overwrites the stored description, so only the first value is
not what remains: the table keeps "B", not "A". -/
theorem C5_descr_counterexample :
    loadResultAt (load_networks
      ["inetnum: 0.0.0.0 - 0.0.0.63", "netname: N", "country: AU",
       "descr: A", "country: AU", "descr: B"]) (Block.mk 0 26)
    = some (some ⟨some (Block.mk 0 26), some 64, some "0.0.0.0 - 0.0.0.63",
        some "N", some "AU", some "B", none⟩) ∧
    (some "B" : Option String) ≠ some "A" := by
  constructor
  · decide
  · decide

/-- C8 (amended): a non-comment, non-blank line whose key (the stripped
text before the first colon) is unrecognized is silently ignored — this
covers lines with no colon whose content is not exactly a recognized key —
but a line with a recognized key and no colon raises IndexError when the
value is extracted. -/
theorem C8_malformed_line_handling (st : LoadState) (line : String)
    (hhash : startsWithHash line.data = false)
    (hblank : pyStrip line.data ≠ []) :
    (pyStrip (pySplit ':' line.data).headI ∉ recognizedKeys →
      loadLine st line = .ok st) ∧
    (pyStrip (pySplit ':' line.data).headI ∈ recognizedKeys →
      (pySplit ':' line.data).get? 1 = none →
      loadLine st line = .error "IndexError: list index out of range") := by
  constructor
  · intro hnot
    unfold loadLine
    rw [if_neg (show ¬(startsWithHash line.data = true) by rw [hhash]; simp)]
    rw [if_neg hblank]
    dsimp only
    rw [if_neg hnot]
  · intro hin hnone
    unfold loadLine
    rw [if_neg (show ¬(startsWithHash line.data = true) by rw [hhash]; simp)]
    rw [if_neg hblank]
    dsimp only
    rw [if_pos hin, hnone]

/-- Witness for C8 at the line "netname" (recognized key, no colon). -/
theorem C8_malformed_line_handling_witness :
    (pyStrip (pySplit ':' ("netname" : String).data).headI ∉ recognizedKeys →
      loadLine initState "netname" = .ok initState) ∧
    (pyStrip (pySplit ':' ("netname" : String).data).headI ∈ recognizedKeys →
      (pySplit ':' ("netname" : String).data).get? 1 = none →
      loadLine initState "netname" = .error "IndexError: list index out of range") :=
  C8_malformed_line_handling initState "netname" (by decide) (by decide)

/-- C8 counterexample: the line "netname" has no colon yet is not ignored:
load_networks raises (IndexError) on it. -/
theorem C8_missing_colon_counterexample :
    loadOk (load_networks ["netname"]) = false := by decide

/-- C10 (amended): a netname or country line with no active range raises
(iterating None); a descr line with no active range raises only when the
previously processed key was not descr — with prev_key = descr (which
survives blank lines) it is skipped, so load_networks is total on some
files violating the claimed precondition. -/
theorem C10_attribute_without_range (st : LoadState) (line : String) (raw : List Char)
    (hhash : startsWithHash line.data = false)
    (hblank : pyStrip line.data ≠ [])
    (hval : (pySplit ':' line.data).get? 1 = some raw)
    (hnone : st.current_range = none) :
    ((pyStrip (pySplit ':' line.data).headI = "netname".data ∨
      pyStrip (pySplit ':' line.data).headI = "country".data) →
      loadLine st line = .error "TypeError: NoneType object is not iterable") ∧
    (pyStrip (pySplit ':' line.data).headI = "descr".data →
      (st.prev_key ≠ some "descr".data →
        loadLine st line = .error "TypeError: NoneType object is not iterable") ∧
      (st.prev_key = some "descr".data → loadLine st line = .ok st)) := by
  constructor
  · intro hkey
    rcases hkey with hkey | hkey
    · rw [loadLine_eq_loadKeyed st line "netname".data raw hhash hblank hkey
        (by decide) hval]
      unfold loadKeyed
      rw [if_neg (fun h => absurd h.1 (by decide)), if_neg (by decide), hnone]
    · rw [loadLine_eq_loadKeyed st line "country".data raw hhash hblank hkey
        (by decide) hval]
      unfold loadKeyed
      rw [if_neg (fun h => absurd h.1 (by decide)), if_neg (by decide), hnone]
  · intro hkey
    have hred := loadLine_eq_loadKeyed st line "descr".data raw hhash hblank hkey
      (by decide) hval
    constructor
    · intro hprev
      rw [hred]
      unfold loadKeyed
      rw [if_neg (fun h => hprev h.2), if_neg (by decide), hnone]
    · intro hprev
      rw [hred]
      unfold loadKeyed
      rw [if_pos ⟨rfl, hprev⟩]

/-- Witness for C10 at the line "netname: X" in the initial state. -/
theorem C10_attribute_without_range_witness :
    ((pyStrip (pySplit ':' ("netname: X" : String).data).headI = "netname".data ∨
      pyStrip (pySplit ':' ("netname: X" : String).data).headI = "country".data) →
      loadLine initState "netname: X"
        = .error "TypeError: NoneType object is not iterable") ∧
    (pyStrip (pySplit ':' ("netname: X" : String).data).headI = "descr".data →
      (initState.prev_key ≠ some "descr".data →
        loadLine initState "netname: X"
          = .error "TypeError: NoneType object is not iterable") ∧
      (initState.prev_key = some "descr".data →
        loadLine initState "netname: X" = .ok initState)) :=
  C10_attribute_without_range initState "netname: X" " X".data
    (by decide) (by decide) (by decide) rfl

/-- C10 counterexample: a file whose last descr line has no active range
(current_range is None after the blank line) loads without error — the
line is skipped via prev_key — refuting that load_networks is total only
when every attribute line is preceded by an inetnum since the last blank
line. -/
theorem C10_total_counterexample :
    loadOk (load_networks
      ["inetnum: 0.0.0.0 - 0.0.0.0", "netname: N", "country: AU", "descr: A", "",
       "descr: B"]) = true ∧
    loadResultAt (load_networks
      ["inetnum: 0.0.0.0 - 0.0.0.0", "netname: N", "country: AU", "descr: A", "",
       "descr: B"]) (Block.mk 0 32)
    = some (some ⟨some (Block.mk 0 32), some 1, some "0.0.0.0 - 0.0.0.0",
        some "N", some "AU", some "A", none⟩) := by
  constructor
  · decide
  · decide

end IpAddresses
